import Mathlib

/-!
Shallow embedding of the backupforge core pipeline (crates/common and
crates/core and crates/storage) together with proofs of the specification
claims about it.

Bytes are modelled as natural numbers (the Rust code works on u8; where a
value is used in 64-bit arithmetic the reduction modulo 2^64 is explicit).
External cryptographic and codec primitives (BLAKE3, zstd, lz4, AES-GCM)
are not part of this repository; they enter the model as explicit function
parameters, and where a library enforces a documented contract (the zstd
bulk-decompression capacity, the AEAD decrypt-of-encrypt identity) that
contract is part of the model of the library call.
-/

namespace BackupForge

/-! Data model, from crates/common/src/types.rs and crates/common/src/hash.rs. -/

/-- Model of a lowercase hex digit, as produced by the hex crate used by
hex::encode in ChunkId::from_hash: values 0..9 map to the characters 0..9,
values 10..15 map to the characters a..f. -/
def hexDigit (n : Nat) : Char :=
  if n < 10 then Char.ofNat (48 + n) else Char.ofNat (87 + n)

/-- The two lowercase hex characters of one byte, high nibble first. -/
def hexChars (b : Nat) : List Char :=
  [hexDigit (b / 16), hexDigit (b % 16)]

/-- Model of hex::encode: each byte becomes two lowercase hex characters,
with no separators. -/
def hexEncode (bytes : List Nat) : String :=
  ⟨(bytes.map hexChars).flatten⟩

/-- ChunkId from types.rs: a newtype over the hex string of a digest. -/
structure ChunkId where
  val : String
deriving DecidableEq

/-- ChunkId::from_hash: hex-encode the digest bytes. -/
def ChunkId.from_hash (hash : List Nat) : ChunkId :=
  ⟨hexEncode hash⟩

/-- Chunk from types.rs: identity, size, digest and plaintext bytes. -/
structure Chunk where
  id : ChunkId
  size : Nat
  hash : List Nat
  data : List Nat
deriving DecidableEq

/-- The Chunk value built at both emission sites of chunker.rs: the digest
is hash_data over the plaintext (hash_data is the external BLAKE3 digest,
passed here as the parameter b3), the id is ChunkId::from_hash of that
digest, and size is the plaintext length. -/
def mkChunk (b3 : List Nat → List Nat) (bytes : List Nat) : Chunk :=
  let h := b3 bytes
  { id := ChunkId.from_hash h, size := bytes.length, hash := h, data := bytes }

/-! Chunker, from crates/core/src/chunker.rs. -/

/-- ChunkingStrategy from chunker.rs. -/
inductive ChunkingStrategy where
  | fixed (size : Nat)
  | contentDefined (minSize avgSize maxSize : Nat)
deriving DecidableEq

/-- The while loop of Chunker::chunk_fixed, phrased on the remaining
suffix of the input: each iteration takes min(size, remaining) bytes as a
chunk and advances. The fuel argument bounds the number of iterations; the
driver below supplies more fuel than the loop can consume whenever the
loop terminates in the source (size above zero). -/
def chunkFixedAux (b3 : List Nat → List Nat) (size : Nat) : Nat → List Nat → List Chunk
  | 0, _ => []
  | _ + 1, [] => []
  | fuel + 1, b :: rest =>
    mkChunk b3 ((b :: rest).take size) :: chunkFixedAux b3 size fuel ((b :: rest).drop size)

/-- Chunker::chunk_fixed. -/
def Chunker.chunk_fixed (b3 : List Nat → List Nat) (data : List Nat) (size : Nat) : List Chunk :=
  chunkFixedAux b3 size (data.length + 1) data

/-- The inner boundary-search loop of Chunker::chunk_cdc: starting from
index i with rolling state hash, consume the bytes of the search window in
order; each step updates hash to hash * 31 + byte in u64 arithmetic and
declares a boundary at i + 1 when hash AND mask is zero. Returns the
boundary position, or none when the window is exhausted without one. -/
def cdcScan (mask : Nat) : List Nat → Nat → Nat → Option Nat
  | [], _, _ => none
  | b :: rest, hash, i =>
    if ((hash * 31 + b) % 2 ^ 64) &&& mask = 0 then some (i + 1)
    else cdcScan mask rest ((hash * 31 + b) % 2 ^ 64) (i + 1)

/-- The chunk_end computation of one iteration of Chunker::chunk_cdc's
outer loop: chunk_end starts at offset + min_size; the scan runs over the
indices offset + min_size up to search_end (exclusive), where search_end
is min(offset + max_size, data.len()); a found boundary sets chunk_end,
and an exhausted non-empty window force-cuts at search_end. -/
def findChunkEnd (data : List Nat) (minSize avgSize maxSize offset : Nat) : Nat :=
  let searchEnd := min (offset + maxSize) data.length
  let mask := avgSize - 1
  let seg := (data.drop (offset + minSize)).take (searchEnd - (offset + minSize))
  match cdcScan mask seg 0 (offset + minSize) with
  | some e => e
  | none => if offset + minSize < searchEnd then searchEnd else offset + minSize

/-- The outer while loop of Chunker::chunk_cdc over the running offset.
When fewer than or exactly min_size bytes remain the residual becomes the
final chunk; otherwise a boundary is computed by findChunkEnd and the
slice data[offset..chunk_end] is emitted. The fuel argument bounds the
iteration count; the driver supplies more fuel than the loop can consume
whenever the source loop terminates. -/
def chunkCdcAux (b3 : List Nat → List Nat) (data : List Nat) (minSize avgSize maxSize : Nat) :
    Nat → Nat → List Chunk
  | 0, _ => []
  | fuel + 1, offset =>
    if offset < data.length then
      if data.length - offset ≤ minSize then
        [mkChunk b3 (data.drop offset)]
      else
        let e := findChunkEnd data minSize avgSize maxSize offset
        mkChunk b3 ((data.drop offset).take (e - offset)) ::
          chunkCdcAux b3 data minSize avgSize maxSize fuel e
    else []

/-- Chunker::chunk_cdc. -/
def Chunker.chunk_cdc (b3 : List Nat → List Nat) (data : List Nat)
    (minSize avgSize maxSize : Nat) : List Chunk :=
  chunkCdcAux b3 data minSize avgSize maxSize (data.length + 1) 0

/-- Chunker::chunk_data: dispatch on the strategy. -/
def Chunker.chunk_data (b3 : List Nat → List Nat) (strategy : ChunkingStrategy)
    (data : List Nat) : List Chunk :=
  match strategy with
  | .fixed size => Chunker.chunk_fixed b3 data size
  | .contentDefined minSize avgSize maxSize => Chunker.chunk_cdc b3 data minSize avgSize maxSize

/-! Error taxonomy, from crates/common/src/error.rs (the variants the
modelled code constructs). -/

/-- The error variants reachable from the modelled code paths. -/
inductive Error where
  | ioError (msg : String)
  | encryption (msg : String)
  | chunkNotFound (id : String)
  | unknown (msg : String)
deriving DecidableEq

/-! Deduplication index, from crates/core/src/dedup.rs. The std HashMap
from chunk-id string to reference count is modelled as an association list
without duplicate keys, and the std HashSet of chunk-id strings as a list
without duplicates; the operations below mirror the std entry API calls
the source performs. -/

/-- HashMap::get on the association-list model. -/
def alGet {α : Type} : List (String × α) → String → Option α
  | [], _ => none
  | (k2, v) :: rest, k => if k2 = k then some v else alGet rest k

/-- The effect of the entry(k).or_insert(0) += 1 idiom of
DedupIndex::insert: increment the value at k, inserting 1 if absent. -/
def alBump : List (String × Nat) → String → List (String × Nat)
  | [], k => [(k, 1)]
  | (k2, v) :: rest, k =>
    if k2 = k then (k2, v + 1) :: rest else (k2, v) :: alBump rest k

/-- The effect of writing through HashMap::get_mut(k): replace the value
stored at k (no effect when k is absent). -/
def alSet {α : Type} : List (String × α) → String → α → List (String × α)
  | [], _, _ => []
  | (k2, v2) :: rest, k, v =>
    if k2 = k then (k2, v) :: rest else (k2, v2) :: alSet rest k v

/-- HashMap::remove on the association-list model. -/
def alErase {α : Type} : List (String × α) → String → List (String × α)
  | [], _ => []
  | (k2, v) :: rest, k => if k2 = k then rest else (k2, v) :: alErase rest k

/-- HashSet::insert on the duplicate-free-list model. -/
def setInsert (l : List String) (k : String) : List String :=
  if k ∈ l then l else k :: l

/-- HashSet::remove on the duplicate-free-list model. -/
def setErase : List String → String → List String
  | [], _ => []
  | x :: rest, k => if x = k then rest else x :: setErase rest k

/-- DedupIndex from dedup.rs: the chunks set and the refcount map. -/
structure DedupIndex where
  chunks : List String
  chunk_refs : List (String × Nat)
deriving DecidableEq

/-- DedupIndex::new. -/
def DedupIndex.new : DedupIndex := ⟨[], []⟩

/-- DedupIndex::contains. -/
def DedupIndex.contains (idx : DedupIndex) (id : ChunkId) : Bool :=
  decide (id.val ∈ idx.chunks)

/-- DedupIndex::insert: add to the chunks set and bump the refcount,
starting at 1 when the address is new. -/
def DedupIndex.insert (idx : DedupIndex) (id : ChunkId) : DedupIndex :=
  { chunks := setInsert idx.chunks id.val, chunk_refs := alBump idx.chunk_refs id.val }

/-- DedupIndex::remove: when the address is present, store the saturating
decrement of its count; if the stored count is then zero, drop the address
from both containers and return true. An absent address leaves the index
unchanged and returns false. -/
def DedupIndex.remove (idx : DedupIndex) (id : ChunkId) : DedupIndex × Bool :=
  match alGet idx.chunk_refs id.val with
  | none => (idx, false)
  | some c =>
    let c2 := c - 1
    if c2 = 0 then
      (⟨setErase idx.chunks id.val, alErase idx.chunk_refs id.val⟩, true)
    else
      ({ idx with chunk_refs := alSet idx.chunk_refs id.val c2 }, false)

/-- DedupIndex::len. -/
def DedupIndex.len (idx : DedupIndex) : Nat :=
  idx.chunks.length

/-- DedupIndex::get_ref_count. -/
def DedupIndex.get_ref_count (idx : DedupIndex) (id : ChunkId) : Nat :=
  (alGet idx.chunk_refs id.val).getD 0

/-- The states of a DedupIndex reachable from DedupIndex::new by insert
and remove calls. -/
inductive Reachable : DedupIndex → Prop where
  | base : Reachable DedupIndex.new
  | ins (id : ChunkId) {idx : DedupIndex} : Reachable idx → Reachable (idx.insert id)
  | rem (id : ChunkId) {idx : DedupIndex} : Reachable idx → Reachable (idx.remove id).1

/-- DedupStore from dedup.rs: a wrapper holding the index. -/
structure DedupStore where
  index : DedupIndex
deriving DecidableEq

/-- DedupStore::new. -/
def DedupStore.new : DedupStore := ⟨DedupIndex.new⟩

/-- DedupStore::is_duplicate. -/
def DedupStore.is_duplicate (s : DedupStore) (id : ChunkId) : Bool :=
  s.index.contains id

/-- DedupStore::register_chunk. -/
def DedupStore.register_chunk (s : DedupStore) (id : ChunkId) : DedupStore :=
  ⟨s.index.insert id⟩

/-! Compression, from crates/core/src/compression.rs. The zstd and lz4
codecs are external crates; they enter as parameters giving, for each
payload, the decoded plaintext (none for an undecodable payload). The
capacity check of zstd::bulk::decompress is that library's documented
contract and is modelled inside the library-call wrapper. -/

/-- CompressionAlgorithm from compression.rs. -/
inductive CompressionAlgorithm where
  | none
  | zstd (level : Int)
  | lz4
deriving DecidableEq

/-- Model of the external zstd::bulk::decompress(data, capacity) call: it
yields the decoded plaintext only when decoding succeeds and the plaintext
fits in the given capacity, and fails otherwise. -/
def zstdBulkDecompress (zd : List Nat → Option (List Nat)) (data : List Nat)
    (capacity : Nat) : Option (List Nat) :=
  match zd data with
  | Option.none => Option.none
  | some p => if p.length ≤ capacity then some p else Option.none

/-- Compressor::decompress: the None branch returns the payload unchanged;
the Zstd branch calls zstd::bulk::decompress with a 128 MiB capacity; the
Lz4 branch streams the decoder output without any size bound. -/
def Compressor.decompress (zd ld : List Nat → Option (List Nat))
    (alg : CompressionAlgorithm) (data : List Nat) : Except Error (List Nat) :=
  match alg with
  | .none => .ok data
  | .zstd _ =>
    match zstdBulkDecompress zd data (128 * 1024 * 1024) with
    | some p => .ok p
    | Option.none => .error (.unknown "Zstd decompression failed")
  | .lz4 =>
    match ld data with
    | some p => .ok p
    | Option.none => .error (.ioError "lz4 decode failed")

/-- Compressor::compress: the None branch is the identity; the Zstd and
Lz4 branches run the external encoders (given as parameters zc and lc),
mapping encoder failure to an error. -/
def Compressor.compress (zc : Int → List Nat → Option (List Nat))
    (lc : List Nat → Option (List Nat)) (alg : CompressionAlgorithm)
    (data : List Nat) : Except Error (List Nat) :=
  match alg with
  | .none => .ok data
  | .zstd level =>
    match zc level data with
    | some r => .ok r
    | Option.none => .error (.unknown "Zstd compression failed")
  | .lz4 =>
    match lc data with
    | some r => .ok r
    | Option.none => .error (.ioError "lz4 encode failed")

/-! Encryption, from crates/core/src/encryption.rs. AES-256-GCM is an
external crate; an AeadScheme packages its encrypt and decrypt functions
over (key, nonce, message) together with the AEAD contract that decrypt
inverts encrypt under the same key and nonce. -/

/-- An AEAD cipher as used through the aes_gcm crate: enc produces the
ciphertext-with-tag, dec authenticates and inverts it. -/
structure AeadScheme where
  enc : List Nat → List Nat → List Nat → List Nat
  dec : List Nat → List Nat → List Nat → Option (List Nat)
  dec_enc : ∀ k n p, dec k n (enc k n p) = some p

/-- NONCE_SIZE from encryption.rs: 96 bits. -/
def NONCE_SIZE : Nat := 12

/-- Encryptor::encrypt with the freshly sampled nonce made an explicit
argument: cipher construction fails unless the key is 32 bytes, and the
output is the nonce followed by the AEAD output. -/
def Encryptor.encrypt (S : AeadScheme) (key nonce plaintext : List Nat) :
    Except Error (List Nat) :=
  if key.length ≠ 32 then .error (.encryption "Cipher creation failed")
  else .ok (nonce ++ S.enc key nonce plaintext)

/-- Encryptor::decrypt: inputs shorter than the nonce are rejected, then
the first 12 bytes are split off as the nonce and the rest is decrypted;
AEAD failure surfaces as an encryption error. -/
def Encryptor.decrypt (S : AeadScheme) (key data : List Nat) :
    Except Error (List Nat) :=
  if data.length < NONCE_SIZE then .error (.encryption "Data too short")
  else if key.length ≠ 32 then .error (.encryption "Cipher creation failed")
  else
    match S.dec key (data.take NONCE_SIZE) (data.drop NONCE_SIZE) with
    | some p => .ok p
    | Option.none => .error (.encryption "Decryption failed")

/-! Local storage backend, from crates/storage/src/local.rs. The
filesystem rooted at the backend's base path is modelled as an association
list from file path to file contents; File::create truncates, so a put
overwrites the entry at its path. -/

/-- LocalStorage::chunk_path: chunks/, then the first two characters of
the address as a fan-out subdirectory, then the address. -/
def LocalStorage.chunk_path (id : ChunkId) : String :=
  "chunks/" ++ id.val.take 2 ++ "/" ++ id.val

/-- File::create then write_all: bind the path to the new contents,
replacing any previous contents. -/
def alPut {α : Type} : List (String × α) → String → α → List (String × α)
  | [], k, v => [(k, v)]
  | (k2, v2) :: rest, k, v =>
    if k2 = k then (k2, v) :: rest else (k2, v2) :: alPut rest k v

/-- LocalStorage::put_chunk on the filesystem model. -/
def LocalStorage.put_chunk (fs : List (String × List Nat)) (id : ChunkId)
    (data : List Nat) : List (String × List Nat) :=
  alPut fs (LocalStorage.chunk_path id) data

/-- LocalStorage::get_chunk: a missing file is Error::ChunkNotFound with
the address, otherwise the file contents are returned. -/
def LocalStorage.get_chunk (fs : List (String × List Nat)) (id : ChunkId) :
    Except Error (List Nat) :=
  match alGet fs (LocalStorage.chunk_path id) with
  | Option.none => .error (.chunkNotFound id.val)
  | some d => .ok d

/-! Engine, from crates/core/src/engine.rs. The engine's configuration is
fixed at construction; the compressor and optional encryptor are carried
as the per-payload transforms they denote. -/

/-- The per-engine configuration of BackupEngine: strategy plus the
compress and optional encrypt transforms built from the config. -/
structure EngineModel where
  strategy : ChunkingStrategy
  compress : List Nat → Except Error (List Nat)
  encryptTx : Option (List Nat → Except Error (List Nat))

/-- The per-chunk loop of BackupEngine::process_data: a duplicate chunk is
re-registered and its id appended; a novel chunk is compressed, encrypted
when an encryptor is configured, registered, and its id appended. The
dedup store threads through; an error from a transform aborts the call. -/
def processChunks (eng : EngineModel) :
    DedupStore → List Chunk → Except Error (DedupStore × List ChunkId)
  | store, [] => .ok (store, [])
  | store, c :: rest =>
    if store.is_duplicate c.id then
      match processChunks eng (store.register_chunk c.id) rest with
      | .ok (s, ids) => .ok (s, c.id :: ids)
      | .error e => .error e
    else
      match eng.compress c.data with
      | .error e => .error e
      | .ok compressed =>
        match (match eng.encryptTx with
               | some tx => tx compressed
               | Option.none => .ok compressed) with
        | .error e => .error e
        | .ok _finalData =>
          match processChunks eng (store.register_chunk c.id) rest with
          | .ok (s, ids) => .ok (s, c.id :: ids)
          | .error e => .error e

/-- BackupEngine::process_data: chunk the input, then run the per-chunk
pipeline, returning the updated dedup store and the ordered chunk ids. -/
def BackupEngine.process_data (b3 : List Nat → List Nat) (eng : EngineModel)
    (store : DedupStore) (data : List Nat) : Except Error (DedupStore × List ChunkId) :=
  processChunks eng store (Chunker.chunk_data b3 eng.strategy data)

/-- BackupEngine::restore_data: the body's per-id loop is entirely
commented out in the source, so the accumulator stays empty and the call
returns Ok of the empty byte vector for every input. -/
def BackupEngine.restore_data (chunk_ids : List ChunkId) : Except Error (List Nat) :=
  let result : List Nat := []
  .ok result

/-- FileMetadata from types.rs (the modified timestamp, a wall-clock
value, is omitted from the model). -/
structure FileMetadata where
  path : String
  size : Nat
  permissions : Nat
  is_directory : Bool
  chunk_ids : List ChunkId
deriving DecidableEq

/-- Snapshot from types.rs (the random uuid and the creation timestamp,
both nondeterministic, are omitted from the model; parent_snapshot is
always None in the source and is omitted too). -/
structure Snapshot where
  name : String
  source_path : String
  total_size : Nat
  compressed_size : Nat
  file_count : Nat
  chunk_ids : List ChunkId
  tags : List String
deriving DecidableEq

/-- BackupEngine::create_snapshot: totals are summed, the chunk id lists
of all files are concatenated in order with duplicates retained, and the
dedup store is not consulted or modified (the function does not touch
it). -/
def BackupEngine.create_snapshot (name source_path : String)
    (file_metadatas : List FileMetadata) : Snapshot :=
  { name := name
    source_path := source_path
    total_size := (file_metadatas.map FileMetadata.size).sum
    compressed_size := (file_metadatas.map FileMetadata.size).sum
    file_count := file_metadatas.length
    chunk_ids := (file_metadatas.map FileMetadata.chunk_ids).flatten
    tags := [] }

/-! Auxiliary definitions used to state and instantiate the claims. -/

/-- The structural invariant the DedupIndex maintains: the chunks set and
the key set of the refcount map have no duplicates and coincide, and every
stored reference count is at least 1. -/
def DedupInv (idx : DedupIndex) : Prop :=
  idx.chunks.Nodup ∧ (idx.chunk_refs.map Prod.fst).Nodup ∧
  (∀ s : String, s ∈ idx.chunks ↔ s ∈ idx.chunk_refs.map Prod.fst) ∧
  (∀ p ∈ idx.chunk_refs, 1 ≤ p.2)

/-- The sixteen characters hex::encode can emit. -/
def hexAlphabet : List Char :=
  "0123456789abcdef".toList

/-- A concrete stand-in for the external BLAKE3 digest, used to evaluate
the pipeline on concrete inputs: the digest of a byte list is the list
itself. -/
def listHash : List Nat → List Nat := fun l => l

/-- A concrete constant digest function used in witnesses. -/
def constHash : List Nat → List Nat := fun _ => [171]

/-- A concrete lz4 codec stand-in that is never consulted. -/
def noCodec : List Nat → Option (List Nat) := fun _ => none

/-- A concrete zstd codec stand-in that is never consulted. -/
def noZCodec : Int → List Nat → Option (List Nat) := fun _ _ => none

/-- A concrete decoder whose output exceeds the 128 MiB ceiling on every
payload: the decompression-bomb scenario of the spec. -/
def bombDecode : List Nat → Option (List Nat) :=
  fun _ => some (List.replicate (2 ^ 28) 0)

/-- An engine configured with fixed-size-4 chunking, no compression
(CompressionAlgorithm::None through the compressor) and no encryption. -/
def engineFixed4 : EngineModel :=
  { strategy := .fixed 4
    compress := Compressor.compress noZCodec noCodec CompressionAlgorithm.none
    encryptTx := none }

/-- An engine configured with fixed-size-1 chunking, no compression and no
encryption. -/
def engineFixed1 : EngineModel :=
  { strategy := .fixed 1
    compress := Compressor.compress noZCodec noCodec CompressionAlgorithm.none
    encryptTx := none }

/-- A degenerate AEAD instance (ciphertext equals plaintext) used only to
instantiate witnesses of theorems quantified over every AeadScheme. -/
def trivialAead : AeadScheme :=
  { enc := fun _ _ p => p
    dec := fun _ _ c => some c
    dec_enc := fun _ _ _ => rfl }

/-- A file metadata record whose chunk sequence repeats one address. -/
def fmDup : FileMetadata :=
  { path := "f", size := 2, permissions := 420, is_directory := false
    chunk_ids := [⟨"07"⟩, ⟨"07"⟩] }

/-! Supporting lemmas about hex encoding. -/

/-- The hex encoding of a byte list has two characters per byte. -/
theorem hexEncode_length (bytes : List Nat) : (hexEncode bytes).length = 2 * bytes.length := by
  show ((bytes.map hexChars).flatten).length = 2 * bytes.length
  induction bytes with
  | nil => rfl
  | cons b t ih =>
    simp only [List.map_cons, List.flatten_cons, List.length_append, ih, hexChars,
      List.length_cons, List.length_nil]
    omega

/-- Every nibble below 16 is rendered inside the lowercase hex alphabet. -/
theorem mem_hexAlphabet_of_lt (n : Nat) (h : n < 16) : hexDigit n ∈ hexAlphabet := by
  interval_cases n <;> decide

/-- Every character emitted by the hex encoding of genuine bytes is a
lowercase hex character. -/
theorem hexEncode_chars (bytes : List Nat) (hb : ∀ b ∈ bytes, b < 256) :
    ∀ ch ∈ (hexEncode bytes).toList, ch ∈ hexAlphabet := by
  intro ch hch
  have hmem : ch ∈ (bytes.map hexChars).flatten := hch
  rw [List.mem_flatten] at hmem
  obtain ⟨l, hl, hchl⟩ := hmem
  rw [List.mem_map] at hl
  obtain ⟨b, hbmem, rfl⟩ := hl
  have hb256 := hb b hbmem
  have h1 : b / 16 < 16 := by omega
  have h2 : b % 16 < 16 := Nat.mod_lt _ (by norm_num)
  simp only [hexChars, List.mem_cons, List.not_mem_nil, or_false] at hchl
  rcases hchl with rfl | rfl
  · exact mem_hexAlphabet_of_lt _ h1
  · exact mem_hexAlphabet_of_lt _ h2

/-! Supporting lemmas about the filesystem model. -/

/-- Reading back the key just written returns the written value. -/
theorem alGet_alPut_self {α : Type} (l : List (String × α)) (k : String) (v : α) :
    alGet (alPut l k v) k = some v := by
  induction l with
  | nil => simp [alPut, alGet]
  | cons p rest ih =>
    obtain ⟨k2, v2⟩ := p
    by_cases hk : k2 = k
    · simp [alPut, hk, alGet]
    · simp [alPut, hk, alGet, ih]

/-- C9: for the local storage backend, get_chunk after put_chunk of the
same address returns exactly the written bytes, and get_chunk of an
address whose path holds no blob fails with the ChunkNotFound error. -/
theorem storage_get_put_contract (fs : List (String × List Nat)) (a : ChunkId) (x : List Nat) :
    LocalStorage.get_chunk (LocalStorage.put_chunk fs a x) a = .ok x ∧
    (alGet fs (LocalStorage.chunk_path a) = none →
      LocalStorage.get_chunk fs a = .error (Error.chunkNotFound a.val)) := by
  constructor
  · simp [LocalStorage.get_chunk, LocalStorage.put_chunk, alGet_alPut_self]
  · intro h
    simp [LocalStorage.get_chunk, h]

/-- Witness for storage_get_put_contract at a concrete store, address and
payload, with the no-blob hypothesis discharged on the empty store. -/
theorem storage_get_put_contract_witness :
    LocalStorage.get_chunk (LocalStorage.put_chunk [] ⟨"ab12"⟩ [1, 2]) ⟨"ab12"⟩ = .ok [1, 2] ∧
    LocalStorage.get_chunk [] ⟨"ab12"⟩ = .error (Error.chunkNotFound "ab12") :=
  ⟨(storage_get_put_contract [] ⟨"ab12"⟩ [1, 2]).1,
   (storage_get_put_contract [] ⟨"ab12"⟩ [1, 2]).2 rfl⟩

/-! Supporting lemmas about fixed-size chunking. -/

/-- The fixed-chunking loop emits nothing on empty input. -/
theorem chunkFixedAux_nil (b3 : List Nat → List Nat) (size : Nat) :
    ∀ fuel, chunkFixedAux b3 size fuel [] = [] := by
  intro fuel
  cases fuel <;> rfl

/-- Behaviour of the fixed-chunking loop under sufficient fuel: the chunk
plaintexts concatenate to the input, no chunk exceeds the configured size,
and every chunk before the last has exactly the configured size. -/
theorem chunkFixedAux_spec (b3 : List Nat → List Nat) (size : Nat) (hs : 0 < size) :
    ∀ fuel (data : List Nat), data.length < fuel →
      ((chunkFixedAux b3 size fuel data).map Chunk.data).flatten = data ∧
      (∀ c ∈ chunkFixedAux b3 size fuel data, c.data.length ≤ size) ∧
      (∀ c ∈ (chunkFixedAux b3 size fuel data).dropLast, c.data.length = size) := by
  intro fuel
  induction fuel with
  | zero => intro data h; exact absurd h (Nat.not_lt_zero _)
  | succ fuel ih =>
    intro data hlen
    cases data with
    | nil => simp [chunkFixedAux]
    | cons b rest =>
      have hd : ((b :: rest).drop size).length < fuel := by
        simp only [List.length_drop, List.length_cons] at *
        omega
      obtain ⟨ihj, ihb, ihl⟩ := ih _ hd
      simp only [chunkFixedAux]
      refine ⟨?_, ?_, ?_⟩
      · simp only [List.map_cons, List.flatten_cons, mkChunk]
        rw [ihj, List.take_append_drop]
      · intro c hc
        rcases List.mem_cons.mp hc with rfl | hc
        · simp only [mkChunk, List.length_take]
          omega
        · exact ihb c hc
      · cases haux : chunkFixedAux b3 size fuel ((b :: rest).drop size) with
        | nil =>
          intro c hc
          simp at hc
        | cons c2 t2 =>
          intro c hc
          rw [List.dropLast_cons₂] at hc
          rcases List.mem_cons.mp hc with rfl | hc2
          · have hne : (b :: rest).drop size ≠ [] := by
              intro hnil
              rw [hnil, chunkFixedAux_nil] at haux
              exact (List.cons_ne_nil _ _) haux.symm
            have hlt : size < (b :: rest).length := by
              by_contra hge
              exact hne (List.drop_eq_nil_of_le (by omega))
            simp only [mkChunk, List.length_take]
            omega
          · exact ihl c (by rw [haux]; exact hc2)

/-- C6: fixed-mode chunking produces chunks of exactly the configured size
except possibly the last chunk, which may be shorter, and the chunk
plaintexts concatenate to the input. -/
theorem fixed_chunking_shape (b3 : List Nat → List Nat) (data : List Nat) (size : Nat)
    (hs : 0 < size) :
    (∀ c ∈ (Chunker.chunk_fixed b3 data size).dropLast, c.data.length = size) ∧
    (∀ c ∈ Chunker.chunk_fixed b3 data size, c.data.length ≤ size) ∧
    ((Chunker.chunk_fixed b3 data size).map Chunk.data).flatten = data := by
  obtain ⟨h1, h2, h3⟩ := chunkFixedAux_spec b3 size hs (data.length + 1) data (by omega)
  exact ⟨h3, h2, h1⟩

/-- Witness for fixed_chunking_shape on a concrete three-byte input with
chunk size two. -/
theorem fixed_chunking_shape_witness :
    0 < 2 ∧
    ((∀ c ∈ (Chunker.chunk_fixed listHash [1, 2, 3] 2).dropLast, c.data.length = 2) ∧
     (∀ c ∈ Chunker.chunk_fixed listHash [1, 2, 3] 2, c.data.length ≤ 2) ∧
     ((Chunker.chunk_fixed listHash [1, 2, 3] 2).map Chunk.data).flatten = [1, 2, 3]) :=
  ⟨by decide, fixed_chunking_shape listHash [1, 2, 3] 2 (by decide)⟩

/-! Supporting lemmas tracing every emitted chunk to its build site. -/

/-- Every chunk the fixed-chunking loop emits is built by mkChunk. -/
theorem chunkFixedAux_mem (b3 : List Nat → List Nat) (size : Nat) :
    ∀ fuel data c, c ∈ chunkFixedAux b3 size fuel data → ∃ bs, c = mkChunk b3 bs := by
  intro fuel
  induction fuel with
  | zero => intro data c hc; simp [chunkFixedAux] at hc
  | succ fuel ih =>
    intro data c hc
    cases data with
    | nil => simp [chunkFixedAux] at hc
    | cons b rest =>
      simp only [chunkFixedAux] at hc
      rcases List.mem_cons.mp hc with rfl | hc
      · exact ⟨_, rfl⟩
      · exact ih _ c hc

/-- Every chunk the CDC loop emits is built by mkChunk. -/
theorem chunkCdcAux_mem (b3 : List Nat → List Nat) (data : List Nat)
    (minS avgS maxS : Nat) :
    ∀ fuel offset c, c ∈ chunkCdcAux b3 data minS avgS maxS fuel offset →
      ∃ bs, c = mkChunk b3 bs := by
  intro fuel
  induction fuel with
  | zero => intro offset c hc; simp [chunkCdcAux] at hc
  | succ fuel ih =>
    intro offset c hc
    simp only [chunkCdcAux] at hc
    split_ifs at hc with h1 h2
    · simp only [List.mem_singleton] at hc
      exact ⟨_, hc⟩
    · rcases List.mem_cons.mp hc with rfl | hc
      · exact ⟨_, rfl⟩
      · exact ih _ c hc
    · simp at hc

/-- C4: every chunk emitted by the chunker, in either mode, has as its id
the ChunkId built from the digest of that chunk's own plaintext: the
lowercase hex encoding, two characters per digest byte with no separators,
of the digest (the external BLAKE3 function enters as the parameter
b3). -/
theorem chunk_address_is_hash (b3 : List Nat → List Nat) (strategy : ChunkingStrategy)
    (data : List Nat) (c : Chunk) (hc : c ∈ Chunker.chunk_data b3 strategy data)
    (hb : ∀ bs, ∀ b ∈ b3 bs, b < 256) :
    c.id = ChunkId.from_hash (b3 c.data) ∧
    c.id.val = hexEncode (b3 c.data) ∧
    c.id.val.length = 2 * (b3 c.data).length ∧
    (∀ ch ∈ c.id.val.toList, ch ∈ hexAlphabet) := by
  have hmk : ∃ bs, c = mkChunk b3 bs := by
    cases strategy with
    | fixed size => exact chunkFixedAux_mem b3 size _ data c hc
    | contentDefined minS avgS maxS => exact chunkCdcAux_mem b3 data minS avgS maxS _ 0 c hc
  obtain ⟨bs, rfl⟩ := hmk
  exact ⟨rfl, rfl, hexEncode_length (b3 bs), hexEncode_chars (b3 bs) (hb bs)⟩

/-- Witness for chunk_address_is_hash: the single chunk of a one-byte
input under a constant digest function. -/
theorem chunk_address_is_hash_witness :
    (mkChunk constHash [5] ∈ Chunker.chunk_data constHash (ChunkingStrategy.fixed 1) [5]) ∧
    ((mkChunk constHash [5]).id = ChunkId.from_hash (constHash (mkChunk constHash [5]).data) ∧
     (mkChunk constHash [5]).id.val = hexEncode (constHash (mkChunk constHash [5]).data) ∧
     (mkChunk constHash [5]).id.val.length = 2 * (constHash (mkChunk constHash [5]).data).length ∧
     (∀ ch ∈ (mkChunk constHash [5]).id.val.toList, ch ∈ hexAlphabet)) :=
  ⟨by decide,
   chunk_address_is_hash constHash (ChunkingStrategy.fixed 1) [5] (mkChunk constHash [5])
     (by decide) (fun bs b hmem => by simp [constHash] at hmem; omega)⟩

/-! Supporting lemmas about content-defined chunking. -/

/-- A boundary reported by the rolling-hash scan lies strictly after the
scan's start index and within the scanned window. -/
theorem cdcScan_some_bounds (mask : Nat) :
    ∀ (seg : List Nat) (hash i e : Nat), cdcScan mask seg hash i = some e →
      i < e ∧ e ≤ i + seg.length := by
  intro seg
  induction seg with
  | nil => intro hash i e h; simp [cdcScan] at h
  | cons b rest ih =>
    intro hash i e h
    simp only [cdcScan] at h
    split at h
    · obtain rfl : i + 1 = e := Option.some.inj h
      simp only [List.length_cons]
      omega
    · obtain ⟨h1, h2⟩ := ih _ _ _ h
      simp only [List.length_cons]
      omega

/-- Bounds on the chunk_end computed for one CDC iteration, in the search
branch's context (more than min_size bytes remain) with min_size at most
max_size and max_size positive: the boundary lies strictly after the
offset, at or after offset + min_size, and no later than both
offset + max_size and the end of the input. -/
theorem findChunkEnd_bounds (data : List Nat) (minS avgS maxS offset : Nat)
    (hms : minS ≤ maxS) (hrem : offset + minS < data.length) (hmax : 1 ≤ maxS) :
    offset < findChunkEnd data minS avgS maxS offset ∧
    offset + minS ≤ findChunkEnd data minS avgS maxS offset ∧
    findChunkEnd data minS avgS maxS offset ≤ offset + maxS ∧
    findChunkEnd data minS avgS maxS offset ≤ data.length := by
  have hseg : ((data.drop (offset + minS)).take
      (min (offset + maxS) data.length - (offset + minS))).length
      = min (offset + maxS) data.length - (offset + minS) := by
    simp only [List.length_take, List.length_drop]
    omega
  simp only [findChunkEnd]
  split
  case _ e heq =>
    obtain ⟨h1, h2⟩ := cdcScan_some_bounds _ _ _ _ _ heq
    rw [hseg] at h2
    omega
  case _ heq =>
    split
    · omega
    · omega

/-- Behaviour of the CDC loop under sufficient fuel: the chunk plaintexts
concatenate to the yet-unconsumed suffix, no chunk exceeds max_size, and
every chunk before the last has at least min_size bytes. -/
theorem chunkCdcAux_spec (b3 : List Nat → List Nat) (data : List Nat)
    (minS avgS maxS : Nat) (hma : minS ≤ avgS) (ham : avgS ≤ maxS) (hap : 1 ≤ avgS) :
    ∀ fuel offset, data.length < fuel + offset →
      ((chunkCdcAux b3 data minS avgS maxS fuel offset).map Chunk.data).flatten
        = data.drop offset ∧
      (∀ c ∈ chunkCdcAux b3 data minS avgS maxS fuel offset, c.data.length ≤ maxS) ∧
      (∀ c ∈ (chunkCdcAux b3 data minS avgS maxS fuel offset).dropLast,
        minS ≤ c.data.length) := by
  intro fuel
  induction fuel with
  | zero =>
    intro offset h
    refine ⟨?_, by simp [chunkCdcAux], by simp [chunkCdcAux]⟩
    simp only [chunkCdcAux, List.map_nil, List.flatten_nil]
    exact (List.drop_eq_nil_of_le (by omega)).symm
  | succ fuel ih =>
    intro offset hfuel
    by_cases ho : offset < data.length
    · by_cases hres : data.length - offset ≤ minS
      · simp only [chunkCdcAux, if_pos ho, if_pos hres]
        refine ⟨by simp [mkChunk], ?_, by simp⟩
        intro c hc
        simp only [List.mem_singleton] at hc
        subst hc
        simp only [mkChunk, List.length_drop]
        omega
      · have hb := findChunkEnd_bounds data minS avgS maxS offset
          (hma.trans ham) (by omega) (by omega)
        simp only [chunkCdcAux, if_pos ho, if_neg hres]
        obtain ⟨ihj, ihb, ihl⟩ := ih (findChunkEnd data minS avgS maxS offset) (by omega)
        refine ⟨?_, ?_, ?_⟩
        · simp only [List.map_cons, List.flatten_cons, mkChunk]
          rw [ihj]
          have hdrop : data.drop (findChunkEnd data minS avgS maxS offset)
              = data.drop (offset + (findChunkEnd data minS avgS maxS offset - offset)) := by
            congr 1
            omega
          rw [hdrop]
          exact List.drop_take_append_drop data offset _
        · intro c hc
          rcases List.mem_cons.mp hc with rfl | hc
          · simp only [mkChunk, List.length_take, List.length_drop]
            omega
          · exact ihb c hc
        · cases haux : chunkCdcAux b3 data minS avgS maxS fuel
              (findChunkEnd data minS avgS maxS offset) with
          | nil =>
            intro c hc
            simp at hc
          | cons c2 t2 =>
            intro c hc
            rw [List.dropLast_cons₂] at hc
            rcases List.mem_cons.mp hc with rfl | hc2
            · simp only [mkChunk, List.length_take, List.length_drop]
              omega
            · exact ihl c (by rw [haux]; exact hc2)
    · simp only [chunkCdcAux, if_neg ho]
      refine ⟨?_, by simp, by simp⟩
      simp only [List.map_nil, List.flatten_nil]
      exact (List.drop_eq_nil_of_le (by omega)).symm

/-- C5: under parameters min_size at most avg_size at most max_size with
avg_size a power of two, CDC chunking emits chunks no larger than
max_size; every chunk except possibly the final one has at least min_size
bytes; an input of at most min_size bytes becomes a single residual chunk
without boundary search; and the chunk plaintexts concatenate to the
input. -/
theorem cdc_chunking_bounds (b3 : List Nat → List Nat) (data : List Nat)
    (minS avgS maxS : Nat) (hma : minS ≤ avgS) (ham : avgS ≤ maxS)
    (hpow : ∃ k, avgS = 2 ^ k) :
    (∀ c ∈ Chunker.chunk_cdc b3 data minS avgS maxS, c.data.length ≤ maxS) ∧
    (∀ c ∈ (Chunker.chunk_cdc b3 data minS avgS maxS).dropLast, minS ≤ c.data.length) ∧
    (data ≠ [] → data.length ≤ minS →
      Chunker.chunk_cdc b3 data minS avgS maxS = [mkChunk b3 data]) ∧
    ((Chunker.chunk_cdc b3 data minS avgS maxS).map Chunk.data).flatten = data := by
  have hap : 1 ≤ avgS := by
    obtain ⟨k, rfl⟩ := hpow
    exact Nat.one_le_two_pow
  obtain ⟨hj, hb, hl⟩ :=
    chunkCdcAux_spec b3 data minS avgS maxS hma ham hap (data.length + 1) 0 (by omega)
  refine ⟨hb, hl, ?_, by simpa using hj⟩
  intro hne hlen
  have hpos : 0 < data.length := List.length_pos.mpr hne
  show chunkCdcAux b3 data minS avgS maxS (data.length + 1) 0 = [mkChunk b3 data]
  cases hfl : data.length with
  | zero => omega
  | succ n =>
    simp only [chunkCdcAux, hfl]
    rw [if_pos (by omega), if_pos (by omega), List.drop_zero]

/-- Witness for cdc_chunking_bounds on a concrete six-byte input with
parameters 1, 2, 4. -/
theorem cdc_chunking_bounds_witness :
    (1 ≤ 2 ∧ 2 ≤ 4 ∧ (∃ k, 2 = 2 ^ k)) ∧
    ((∀ c ∈ Chunker.chunk_cdc listHash [1, 2, 3, 4, 5, 6] 1 2 4, c.data.length ≤ 4) ∧
     (∀ c ∈ (Chunker.chunk_cdc listHash [1, 2, 3, 4, 5, 6] 1 2 4).dropLast,
       1 ≤ c.data.length) ∧
     ([1, 2, 3, 4, 5, 6] ≠ ([] : List Nat) → ([1, 2, 3, 4, 5, 6] : List Nat).length ≤ 1 →
       Chunker.chunk_cdc listHash [1, 2, 3, 4, 5, 6] 1 2 4
         = [mkChunk listHash [1, 2, 3, 4, 5, 6]]) ∧
     ((Chunker.chunk_cdc listHash [1, 2, 3, 4, 5, 6] 1 2 4).map Chunk.data).flatten
       = [1, 2, 3, 4, 5, 6]) :=
  ⟨⟨by decide, by decide, ⟨1, rfl⟩⟩,
   cdc_chunking_bounds listHash [1, 2, 3, 4, 5, 6] 1 2 4 (by decide) (by decide) ⟨1, rfl⟩⟩

/-! Supporting lemmas about the association-list and set models backing
the dedup index. -/

/-- A lookup misses exactly when the key is outside the key list. -/
theorem alGet_eq_none_iff {α : Type} (l : List (String × α)) (k : String) :
    alGet l k = none ↔ k ∉ l.map Prod.fst := by
  induction l with
  | nil => simp [alGet]
  | cons p rest ih =>
    obtain ⟨k2, v2⟩ := p
    by_cases hk : k2 = k
    · simp [alGet, hk]
    · simp [alGet, hk, ih, Ne.symm hk]

/-- A successful lookup exhibits a member of the list. -/
theorem alGet_mem {α : Type} (l : List (String × α)) (k : String) (v : α)
    (h : alGet l k = some v) : (k, v) ∈ l := by
  induction l with
  | nil => simp [alGet] at h
  | cons p rest ih =>
    obtain ⟨k2, v2⟩ := p
    simp only [alGet] at h
    split at h
    next hk =>
      obtain rfl := Option.some.inj h
      subst hk
      exact List.mem_cons_self _ _
    next hk =>
      exact List.mem_cons_of_mem _ (ih h)

/-- Bumping a key leaves the key set unchanged except for adding the
bumped key. -/
theorem mem_alBump_keys (l : List (String × Nat)) (k a : String) :
    a ∈ (alBump l k).map Prod.fst ↔ a ∈ l.map Prod.fst ∨ a = k := by
  induction l with
  | nil => simp [alBump]
  | cons p rest ih =>
    obtain ⟨k2, v2⟩ := p
    simp only [alBump]
    split
    next hk =>
      subst hk
      simp only [List.map_cons, List.mem_cons]
      tauto
    next hk =>
      simp only [List.map_cons, List.mem_cons, ih]
      tauto

/-- Bumping a key preserves key-set freedom from duplicates. -/
theorem nodup_alBump_keys (l : List (String × Nat)) (k : String)
    (h : (l.map Prod.fst).Nodup) : ((alBump l k).map Prod.fst).Nodup := by
  induction l with
  | nil => simp [alBump]
  | cons p rest ih =>
    obtain ⟨k2, v2⟩ := p
    simp only [List.map_cons, List.nodup_cons] at h
    simp only [alBump]
    split
    next hk =>
      subst hk
      simpa [List.nodup_cons] using h
    next hk =>
      simp only [List.map_cons, List.nodup_cons]
      refine ⟨?_, ih h.2⟩
      rw [mem_alBump_keys]
      push_neg
      exact ⟨h.1, hk⟩

/-- Bumping preserves the everywhere-positive property of stored counts. -/
theorem alBump_values (l : List (String × Nat)) (k : String)
    (h : ∀ p ∈ l, 1 ≤ p.2) : ∀ p ∈ alBump l k, 1 ≤ p.2 := by
  induction l with
  | nil =>
    intro p hp
    simp only [alBump, List.mem_singleton] at hp
    subst hp
    exact le_refl 1
  | cons q rest ih =>
    obtain ⟨k2, v2⟩ := q
    intro p hp
    simp only [alBump] at hp
    split at hp
    next hk =>
      rcases List.mem_cons.mp hp with rfl | hp
      · show 1 ≤ v2 + 1
        omega
      · exact h p (List.mem_cons_of_mem _ hp)
    next hk =>
      rcases List.mem_cons.mp hp with rfl | hp
      · exact h _ (List.mem_cons_self _ _)
      · exact ih (fun q hq => h q (List.mem_cons_of_mem _ hq)) p hp

/-- Overwriting a value leaves the key list unchanged. -/
theorem alSet_keys {α : Type} (l : List (String × α)) (k : String) (v : α) :
    (alSet l k v).map Prod.fst = l.map Prod.fst := by
  induction l with
  | nil => rfl
  | cons p rest ih =>
    obtain ⟨k2, v2⟩ := p
    by_cases hk : k2 = k
    · simp [alSet, hk]
    · simp [alSet, hk, ih]

/-- Every entry after an overwrite is an old entry or the written pair. -/
theorem mem_alSet {α : Type} (l : List (String × α)) (k : String) (v : α) :
    ∀ p ∈ alSet l k v, p ∈ l ∨ p = (k, v) := by
  induction l with
  | nil => simp [alSet]
  | cons q rest ih =>
    obtain ⟨k2, v2⟩ := q
    intro p hp
    simp only [alSet] at hp
    split at hp
    next hk =>
      subst hk
      rcases List.mem_cons.mp hp with rfl | hp
      · right; rfl
      · left; exact List.mem_cons_of_mem _ hp
    next hk =>
      rcases List.mem_cons.mp hp with rfl | hp
      · left; exact List.mem_cons_self _ _
      · rcases ih p hp with hp' | rfl
        · left; exact List.mem_cons_of_mem _ hp'
        · right; rfl

/-- Looking up a present key after overwriting it yields the new value. -/
theorem alGet_alSet_self {α : Type} (l : List (String × α)) (k : String) (c v : α)
    (h : alGet l k = some c) : alGet (alSet l k v) k = some v := by
  induction l with
  | nil => simp [alGet] at h
  | cons p rest ih =>
    obtain ⟨k2, v2⟩ := p
    by_cases hk : k2 = k
    · simp [alSet, hk, alGet]
    · simp only [alGet, if_neg hk] at h
      simp [alSet, hk, alGet, ih h]

/-- Deleting a key from the map deletes it from the key list. -/
theorem alErase_keys {α : Type} (l : List (String × α)) (k : String) :
    (alErase l k).map Prod.fst = (l.map Prod.fst).erase k := by
  induction l with
  | nil => rfl
  | cons p rest ih =>
    obtain ⟨k2, v2⟩ := p
    by_cases hk : k2 = k
    · simp [alErase, hk, List.erase_cons]
    · simp [alErase, hk, List.erase_cons, ih]

/-- Deletion produces a sublist of the original map. -/
theorem alErase_sublist {α : Type} (l : List (String × α)) (k : String) :
    (alErase l k).Sublist l := by
  induction l with
  | nil => simp [alErase]
  | cons p rest ih =>
    obtain ⟨k2, v2⟩ := p
    by_cases hk : k2 = k
    · simp only [alErase, if_pos hk]
      exact (List.sublist_cons_self _ _)
    · simp only [alErase, if_neg hk]
      exact ih.cons₂ _

/-- With duplicate-free keys, a deleted key no longer resolves. -/
theorem alGet_alErase_self {α : Type} (l : List (String × α)) (k : String)
    (h : (l.map Prod.fst).Nodup) : alGet (alErase l k) k = none := by
  rw [alGet_eq_none_iff, alErase_keys]
  intro hmem
  exact ((h.mem_erase_iff).mp hmem).1 rfl

/-- The set-removal model coincides with list erasure. -/
theorem setErase_eq_erase (l : List String) (k : String) : setErase l k = l.erase k := by
  induction l with
  | nil => rfl
  | cons x rest ih =>
    by_cases hk : x = k
    · simp [setErase, hk, List.erase_cons]
    · simp [setErase, hk, List.erase_cons, ih]

/-- Membership after a set insertion. -/
theorem mem_setInsert (l : List String) (k a : String) :
    a ∈ setInsert l k ↔ a = k ∨ a ∈ l := by
  by_cases hk : k ∈ l
  · simp only [setInsert, if_pos hk]
    constructor
    · exact fun h => Or.inr h
    · rintro (rfl | h)
      · exact hk
      · exact h
  · simp [setInsert, if_neg hk]

/-- Set insertion preserves freedom from duplicates. -/
theorem nodup_setInsert (l : List String) (k : String) (h : l.Nodup) :
    (setInsert l k).Nodup := by
  by_cases hk : k ∈ l
  · simpa [setInsert, if_pos hk] using h
  · simp [setInsert, if_neg hk, List.nodup_cons, hk, h]

/-! The DedupIndex invariant and its preservation. -/

/-- The fresh index satisfies the invariant. -/
theorem dedupInv_new : DedupInv DedupIndex.new := by
  refine ⟨List.nodup_nil, List.nodup_nil, ?_, ?_⟩ <;> simp [DedupIndex.new]

/-- DedupIndex::insert preserves the invariant. -/
theorem dedupInv_insert (idx : DedupIndex) (id : ChunkId) (h : DedupInv idx) :
    DedupInv (idx.insert id) := by
  obtain ⟨hn1, hn2, hmem, hval⟩ := h
  refine ⟨nodup_setInsert _ _ hn1, nodup_alBump_keys _ _ hn2, ?_, alBump_values _ _ hval⟩
  intro s
  rw [DedupIndex.insert, mem_setInsert, mem_alBump_keys, hmem s]
  tauto

/-- DedupIndex::remove preserves the invariant. -/
theorem dedupInv_remove (idx : DedupIndex) (id : ChunkId) (h : DedupInv idx) :
    DedupInv (idx.remove id).1 := by
  obtain ⟨hn1, hn2, hmem, hval⟩ := h
  cases hget : alGet idx.chunk_refs id.val with
  | none => simpa [DedupIndex.remove, hget] using ⟨hn1, hn2, hmem, hval⟩
  | some c =>
    by_cases hz : c - 1 = 0
    · simp only [DedupIndex.remove, hget]
      rw [if_pos hz]
      rw [setErase_eq_erase]
      refine ⟨hn1.erase _, ?_, ?_, ?_⟩
      · rw [alErase_keys]
        exact hn2.erase _
      · intro s
        rw [List.Nodup.mem_erase_iff hn1, alErase_keys,
          List.Nodup.mem_erase_iff hn2, hmem s]
      · intro p hp
        exact hval p (List.Sublist.mem hp (alErase_sublist _ _))
    · simp only [DedupIndex.remove, hget]
      rw [if_neg hz]
      refine ⟨hn1, ?_, ?_, ?_⟩
      · rw [alSet_keys]
        exact hn2
      · intro s
        rw [alSet_keys]
        exact hmem s
      · intro p hp
        rcases mem_alSet _ _ _ p hp with hp' | rfl
        · exact hval p hp'
        · simp only
          omega

/-- Every index reachable from DedupIndex::new by insert and remove calls
satisfies the invariant. -/
theorem reachable_dedupInv (idx : DedupIndex) (h : Reachable idx) : DedupInv idx := by
  induction h with
  | base => exact dedupInv_new
  | ins id _ ih => exact dedupInv_insert _ id ih
  | rem id _ ih => exact dedupInv_remove _ id ih

/-- C8: on every reachable index state, remove decrements the stored
reference count; it returns true exactly when the count thereby reached
zero, equivalently exactly when the address was present with count 1
before the call; and removing an absent address is a no-op returning
false. -/
theorem dedup_release_contract (idx : DedupIndex) (h : Reachable idx) (a : ChunkId) :
    ((idx.remove a).2 = true ↔ alGet idx.chunk_refs a.val = some 1) ∧
    (∀ c, alGet idx.chunk_refs a.val = some c →
      (idx.remove a).1.get_ref_count a = c - 1) ∧
    (alGet idx.chunk_refs a.val = none → idx.remove a = (idx, false)) := by
  obtain ⟨hn1, hn2, hmem, hval⟩ := reachable_dedupInv idx h
  cases hget : alGet idx.chunk_refs a.val with
  | none =>
    refine ⟨?_, ?_, fun _ => ?_⟩
    · simp [DedupIndex.remove, hget]
    · intro c hc
      cases hc
    · simp [DedupIndex.remove, hget]
  | some c =>
    have hc1 : 1 ≤ c := hval _ (alGet_mem _ _ _ hget)
    by_cases hz : c - 1 = 0
    · have hceq : c = 1 := by omega
      subst hceq
      have hrm : idx.remove a
          = (⟨setErase idx.chunks a.val, alErase idx.chunk_refs a.val⟩, true) := by
        simp [DedupIndex.remove, hget]
      refine ⟨?_, ?_, ?_⟩
      · rw [hrm]
        simp
      · intro c' hc'
        obtain rfl : (1 : Nat) = c' := Option.some.inj hc'
        rw [hrm]
        show (alGet (alErase idx.chunk_refs a.val) a.val).getD 0 = 1 - 1
        rw [alGet_alErase_self _ _ hn2]
        rfl
      · intro hnone
        simp at hnone
    · have hrm : idx.remove a
          = ({ idx with chunk_refs := alSet idx.chunk_refs a.val (c - 1) }, false) := by
        simp [DedupIndex.remove, hget, hz]
      refine ⟨?_, ?_, ?_⟩
      · rw [hrm]
        simp
        omega
      · intro c' hc'
        obtain rfl : c = c' := Option.some.inj hc'
        rw [hrm]
        show (alGet (alSet idx.chunk_refs a.val (c - 1)) a.val).getD 0 = c - 1
        rw [alGet_alSet_self _ _ c _ hget]
        rfl
      · intro hnone
        simp at hnone

/-- Witness for dedup_release_contract on the reachable one-entry index,
removing its sole address. -/
theorem dedup_release_contract_witness :
    (((DedupIndex.new.insert ⟨"aa"⟩).remove ⟨"aa"⟩).2 = true ↔
      alGet (DedupIndex.new.insert ⟨"aa"⟩).chunk_refs "aa" = some 1) ∧
    (∀ c, alGet (DedupIndex.new.insert ⟨"aa"⟩).chunk_refs "aa" = some c →
      ((DedupIndex.new.insert ⟨"aa"⟩).remove ⟨"aa"⟩).1.get_ref_count ⟨"aa"⟩ = c - 1) ∧
    (alGet (DedupIndex.new.insert ⟨"aa"⟩).chunk_refs "aa" = none →
      (DedupIndex.new.insert ⟨"aa"⟩).remove ⟨"aa"⟩ = (DedupIndex.new.insert ⟨"aa"⟩, false)) :=
  dedup_release_contract (DedupIndex.new.insert ⟨"aa"⟩)
    (Reachable.ins ⟨"aa"⟩ Reachable.base) ⟨"aa"⟩

/-- C10: on every index state reachable by insert and remove calls, the
chunks set has no duplicates and coincides with the key set of the
refcount map, every stored count is at least 1, contains holds exactly on
addresses with refcount at least 1, and len equals the number of entries
with positive refcount. -/
theorem dedup_index_invariant (idx : DedupIndex) (h : Reachable idx) :
    idx.chunks.Nodup ∧
    (∀ s : String, s ∈ idx.chunks ↔ s ∈ idx.chunk_refs.map Prod.fst) ∧
    (∀ p ∈ idx.chunk_refs, 1 ≤ p.2) ∧
    (∀ a : ChunkId, idx.contains a = true ↔ 1 ≤ idx.get_ref_count a) ∧
    idx.len = (idx.chunk_refs.filter (fun p => decide (1 ≤ p.2))).length := by
  obtain ⟨hn1, hn2, hmem, hval⟩ := reachable_dedupInv idx h
  refine ⟨hn1, hmem, hval, ?_, ?_⟩
  · intro a
    rw [DedupIndex.contains, decide_eq_true_iff]
    constructor
    · intro ha
      have hk : a.val ∈ idx.chunk_refs.map Prod.fst := (hmem _).mp ha
      cases hget : alGet idx.chunk_refs a.val with
      | none => exact absurd hk ((alGet_eq_none_iff _ _).mp hget)
      | some c =>
        have hc := hval _ (alGet_mem _ _ _ hget)
        show 1 ≤ (alGet idx.chunk_refs a.val).getD 0
        rw [hget]
        exact hc
    · intro hge
      cases hget : alGet idx.chunk_refs a.val with
      | none =>
        rw [DedupIndex.get_ref_count, hget] at hge
        simp at hge
      | some c =>
        refine (hmem _).mpr ?_
        by_contra hnk
        have hnone : alGet idx.chunk_refs a.val = none := (alGet_eq_none_iff _ _).mpr hnk
        rw [hnone] at hget
        cases hget
  · have hfilter : idx.chunk_refs.filter (fun p => decide (1 ≤ p.2)) = idx.chunk_refs :=
      List.filter_eq_self.mpr (fun p hp => decide_eq_true (hval p hp))
    rw [hfilter, DedupIndex.len]
    have hperm : idx.chunks.Perm (idx.chunk_refs.map Prod.fst) :=
      (List.perm_ext_iff_of_nodup hn1 hn2).mpr hmem
    rw [hperm.length_eq, List.length_map]

/-- Witness for dedup_index_invariant on the reachable one-entry index. -/
theorem dedup_index_invariant_witness :
    (DedupIndex.new.insert ⟨"bb"⟩).chunks.Nodup ∧
    (∀ s : String, s ∈ (DedupIndex.new.insert ⟨"bb"⟩).chunks ↔
      s ∈ (DedupIndex.new.insert ⟨"bb"⟩).chunk_refs.map Prod.fst) ∧
    (∀ p ∈ (DedupIndex.new.insert ⟨"bb"⟩).chunk_refs, 1 ≤ p.2) ∧
    (∀ a : ChunkId, (DedupIndex.new.insert ⟨"bb"⟩).contains a = true ↔
      1 ≤ (DedupIndex.new.insert ⟨"bb"⟩).get_ref_count a) ∧
    (DedupIndex.new.insert ⟨"bb"⟩).len
      = ((DedupIndex.new.insert ⟨"bb"⟩).chunk_refs.filter (fun p => decide (1 ≤ p.2))).length :=
  dedup_index_invariant (DedupIndex.new.insert ⟨"bb"⟩)
    (Reachable.ins ⟨"bb"⟩ Reachable.base)

/-! Encryption claims. -/

/-- Decrypting an encrypt output under the same key recovers the
plaintext: the stored layout splits back into nonce and AEAD output and
the AEAD contract inverts the cipher. -/
theorem decrypt_encrypt_output (S : AeadScheme) (key n p : List Nat)
    (hk : key.length = 32) (hn : n.length = 12) :
    Encryptor.decrypt S key (n ++ S.enc key n p) = .ok p := by
  have hlen : ¬((n ++ S.enc key n p).length < 12) := by
    rw [List.length_append, hn]
    omega
  have hkey : ¬(key.length ≠ 32) := fun hcon => hcon hk
  simp only [Encryptor.decrypt, NONCE_SIZE]
  rw [if_neg hlen, if_neg hkey, List.take_left' hn, List.drop_left' hn, S.dec_enc]

/-- C7: under a 32-byte key, two encrypt calls on the same plaintext with
distinct fresh 12-byte nonces produce the layout nonce followed by AEAD
ciphertext-with-tag, the two outputs differ, and both decrypt back to the
plaintext. -/
theorem encryption_freshness_roundtrip (S : AeadScheme) (key p n1 n2 : List Nat)
    (hk : key.length = 32) (h1 : n1.length = 12) (h2 : n2.length = 12) (hne : n1 ≠ n2) :
    Encryptor.encrypt S key n1 p = .ok (n1 ++ S.enc key n1 p) ∧
    Encryptor.encrypt S key n2 p = .ok (n2 ++ S.enc key n2 p) ∧
    n1 ++ S.enc key n1 p ≠ n2 ++ S.enc key n2 p ∧
    Encryptor.decrypt S key (n1 ++ S.enc key n1 p) = .ok p ∧
    Encryptor.decrypt S key (n2 ++ S.enc key n2 p) = .ok p := by
  have hkey : ¬(key.length ≠ 32) := fun hcon => hcon hk
  refine ⟨?_, ?_, ?_, ?_, ?_⟩
  · rw [Encryptor.encrypt, if_neg hkey]
  · rw [Encryptor.encrypt, if_neg hkey]
  · intro heq
    exact hne (List.append_inj heq (h1.trans h2.symm)).1
  · exact decrypt_encrypt_output S key n1 p hk h1
  · exact decrypt_encrypt_output S key n2 p hk h2

/-- Witness for encryption_freshness_roundtrip with the degenerate AEAD
instance, a 32-byte zero key, and two distinct 12-byte nonces. -/
theorem encryption_freshness_roundtrip_witness :
    ((List.replicate 32 0).length = 32 ∧ (List.replicate 12 0).length = 12 ∧
     (1 :: List.replicate 11 0).length = 12 ∧
     List.replicate 12 0 ≠ 1 :: List.replicate 11 (0 : Nat)) ∧
    (Encryptor.encrypt trivialAead (List.replicate 32 0) (List.replicate 12 0) [9]
       = .ok (List.replicate 12 0 ++ trivialAead.enc (List.replicate 32 0) (List.replicate 12 0) [9]) ∧
     Encryptor.encrypt trivialAead (List.replicate 32 0) (1 :: List.replicate 11 0) [9]
       = .ok ((1 :: List.replicate 11 0) ++ trivialAead.enc (List.replicate 32 0) (1 :: List.replicate 11 0) [9]) ∧
     List.replicate 12 0 ++ trivialAead.enc (List.replicate 32 0) (List.replicate 12 0) [9]
       ≠ (1 :: List.replicate 11 0) ++ trivialAead.enc (List.replicate 32 0) (1 :: List.replicate 11 0) [9] ∧
     Encryptor.decrypt trivialAead (List.replicate 32 0)
       (List.replicate 12 0 ++ trivialAead.enc (List.replicate 32 0) (List.replicate 12 0) [9]) = .ok [9] ∧
     Encryptor.decrypt trivialAead (List.replicate 32 0)
       ((1 :: List.replicate 11 0) ++ trivialAead.enc (List.replicate 32 0) (1 :: List.replicate 11 0) [9]) = .ok [9]) :=
  ⟨⟨by decide, by decide, by decide, by decide⟩,
   encryption_freshness_roundtrip trivialAead (List.replicate 32 0) [9]
     (List.replicate 12 0) (1 :: List.replicate 11 0)
     (by decide) (by decide) (by decide) (by decide)⟩

/-! Compression claims. -/

/-- Counterexample to the claim that every algorithm enforces the 128 MiB
decompression ceiling: through the Lz4 branch a payload whose decoded
plaintext exceeds 128 MiB decompresses successfully. -/
theorem decompress_no_ceiling_for_lz4 :
    Compressor.decompress noCodec bombDecode CompressionAlgorithm.lz4 []
      = .ok (List.replicate (2 ^ 28) 0) ∧
    128 * 1024 * 1024 < (List.replicate (2 ^ 28) (0 : Nat)).length := by
  constructor
  · rfl
  · rw [List.length_replicate]
    norm_num

/-- C3 (amended): the 128 MiB ceiling is enforced by the Zstd branch:
whenever the decoded plaintext of a payload exceeds 128 MiB, Zstd
decompression fails with an error instead of returning it. -/
theorem decompress_zstd_ceiling (zd ld : List Nat → Option (List Nat)) (level : Int)
    (data p : List Nat) (hzd : zd data = some p)
    (hbig : 128 * 1024 * 1024 < p.length) :
    Compressor.decompress zd ld (CompressionAlgorithm.zstd level) data
      = .error (Error.unknown "Zstd decompression failed") := by
  simp only [Compressor.decompress, zstdBulkDecompress, hzd]
  rw [if_neg (by omega)]

/-- Witness for decompress_zstd_ceiling on the oversized decoder output. -/
theorem decompress_zstd_ceiling_witness :
    bombDecode [] = some (List.replicate (2 ^ 28) 0) ∧
    128 * 1024 * 1024 < (List.replicate (2 ^ 28) (0 : Nat)).length ∧
    Compressor.decompress bombDecode noCodec (CompressionAlgorithm.zstd 3) []
      = .error (Error.unknown "Zstd decompression failed") :=
  ⟨rfl, by rw [List.length_replicate]; norm_num,
   decompress_zstd_ceiling bombDecode noCodec 3 [] (List.replicate (2 ^ 28) 0) rfl
     (by rw [List.length_replicate]; norm_num)⟩

/-! Engine claims evaluated at concrete failing inputs. -/

/-- C1 evaluation: the forward pipeline on the bytes 1, 2, 3 yields one
chunk address, but restore_data over that address sequence returns the
empty byte sequence, not the original input: the restore half of the
round-trip is a stub. -/
theorem restore_data_stub_no_roundtrip :
    BackupEngine.process_data listHash engineFixed4 DedupStore.new [1, 2, 3]
      = .ok (⟨⟨["010203"], [("010203", 1)]⟩⟩, [⟨"010203"⟩]) ∧
    BackupEngine.restore_data [⟨"010203"⟩] = .ok [] ∧
    ([] : List Nat) ≠ [1, 2, 3] := by
  refine ⟨?_, rfl, by decide⟩
  rfl

/-- C2 evaluation: processing the bytes 7, 7 under one-byte fixed chunking
registers the single distinct address once per occurrence, leaving its
reference count at 2, not 1; and create_snapshot retains the duplicated
address in the snapshot without touching the dedup store. -/
theorem snapshot_refcount_counts_occurrences :
    BackupEngine.process_data listHash engineFixed1 DedupStore.new [7, 7]
      = .ok (⟨⟨["07"], [("07", 2)]⟩⟩, [⟨"07"⟩, ⟨"07"⟩]) ∧
    (⟨⟨["07"], [("07", 2)]⟩⟩ : DedupStore).index.get_ref_count ⟨"07"⟩ = 2 ∧
    (BackupEngine.create_snapshot "s" "src" [fmDup]).chunk_ids = [⟨"07"⟩, ⟨"07"⟩] ∧
    (2 : Nat) ≠ 1 := by
  refine ⟨?_, rfl, rfl, by decide⟩
  rfl

end BackupForge
